import Mathlib

/-!
Shallow embedding of the arithmetic core of `rsa_app.py` (an educational RSA
visualizer) and verification of its specification.

Python integers are modelled as `Int`.  Python's `%` and `//` are floor-mod
and floor-division, i.e. `Int.fmod` and `Int.fdiv`; `%` by zero raises
`ZeroDivisionError`, which is modelled by an `Option` result (`none` = the
call raises) wherever the divisor is not syntactically guarded away from
zero.  The human-readable step strings appended to the trace lists are
modelled as inductive records carrying exactly the numeric fields that are
interpolated into each string.  `while` loops are modelled with a structural
fuel parameter that provably dominates the loop's termination measure, so
that every definition stays executable by `decide`/`rfl`.
-/

/-- One entry of the step trace produced by `fast_pow_steps`: the two
preamble lines, the per-bit lines, and the final line. -/
inductive PowStep where
  | preambleCompute (base exp mod : Int) : PowStep
  | preambleBinary (exp : Int) : PowStep
  | bitOne (stepNum : Nat) (b mod result : Int) : PowStep
  | bitZero (stepNum : Nat) (result : Int) : PowStep
  | final (result : Int) : PowStep
  deriving DecidableEq

/-- The `while e > 0` loop of `fast_pow_steps`.  Arguments: fuel, `mod`,
current base power `b`, running `result`, remaining exponent `e`, and
`step_num`.  The fuel dominates the number of halvings of `e`. -/
def fastPowLoop : Nat → Int → Int → Int → Int → Nat → Int × List PowStep
  | 0, _, _, result, _, _ => (result, [])
  | fuel+1, mod, b, result, e, stepNum =>
    if 0 < e then
      if e.fmod 2 = 1 then
        let result' := (result * b).fmod mod
        let rest := fastPowLoop fuel mod ((b * b).fmod mod) result' (e.fdiv 2) (stepNum + 1)
        (rest.1, PowStep.bitOne stepNum b mod result' :: rest.2)
      else
        let rest := fastPowLoop fuel mod ((b * b).fmod mod) result (e.fdiv 2) (stepNum + 1)
        (rest.1, PowStep.bitZero stepNum result :: rest.2)
    else (result, [])

/-- `fast_pow_steps(base, exp, mod)` from `rsa_app.py`: square-and-multiply
modular exponentiation returning the result and the step trace.  The first
statement of the body, `b = base % mod`, raises `ZeroDivisionError` in
Python when `mod == 0`; this is the `none` branch. -/
def fast_pow_steps (base exp mod : Int) : Option (Int × List PowStep) :=
  if mod = 0 then none
  else
    let out := fastPowLoop (exp.toNat + 1) mod (base.fmod mod) 1 exp 1
    some (out.1,
      PowStep.preambleCompute base exp mod :: PowStep.preambleBinary exp ::
        (out.2 ++ [PowStep.final out.1]))

/-- One entry of the step trace produced by `extended_gcd`: the `Start:` line
or one `q=...:` line, each showing both running triples `(r, s, t)`. -/
inductive EgcdStep where
  | start (r0 s0 t0 r1 s1 t1 : Int) : EgcdStep
  | iter (q r0 s0 t0 r1 s1 t1 : Int) : EgcdStep
  deriving DecidableEq

/-- The `while r != 0` loop of `extended_gcd`.  Arguments: fuel, then the
triples `(old_r, old_s, old_t)` and `(r, s, t)`.  Python's `//` on the
guarded nonzero divisor `r` is `Int.fdiv`.  The fuel dominates `r.natAbs`,
which strictly decreases each iteration. -/
def egcdLoop : Nat → Int → Int → Int → Int → Int → Int → Int × Int × Int × List EgcdStep
  | 0, old_r, old_s, old_t, _, _, _ => (old_r, old_s, old_t, [])
  | fuel+1, old_r, old_s, old_t, r, s, t =>
    if r = 0 then (old_r, old_s, old_t, [])
    else
      let q := old_r.fdiv r
      let rest := egcdLoop fuel r s t (old_r - q * r) (old_s - q * s) (old_t - q * t)
      (rest.1, rest.2.1, rest.2.2.1,
        EgcdStep.iter q r s t (old_r - q * r) (old_s - q * s) (old_t - q * t) :: rest.2.2.2)

/-- `extended_gcd(a, b)` from `rsa_app.py`: the iterative extended Euclidean
algorithm, returning `(old_r, old_s, old_t)` and the step list (the `Start:`
entry followed by one entry per iteration). -/
def extended_gcd (a b : Int) : Int × Int × Int × List EgcdStep :=
  let out := egcdLoop (b.natAbs + 1) a 1 0 b 0 1
  (out.1, out.2.1, out.2.2.1, EgcdStep.start a 1 0 b 0 1 :: out.2.2.2)

/-- Python's `a % b`: floor-mod, raising `ZeroDivisionError` (here `none`)
when `b == 0`. -/
def pymod (a b : Int) : Option Int :=
  if b = 0 then none else some (a.fmod b)

/-- `mod_inverse(e, phi)` from `rsa_app.py`.  Returns `none` when the Python
call raises (the unguarded `x % phi` with `phi == 0`); otherwise
`some (d?, steps)` where `d?` is `None` (no inverse, `gcd != 1`) or the
normalized inverse `x % phi`. -/
def mod_inverse (e phi : Int) : Option (Option Int × List EgcdStep) :=
  let out := extended_gcd e phi
  if out.1 ≠ 1 then some (none, out.2.2.2)
  else
    match pymod out.2.1 phi with
    | none => none
    | some d => some (some d, out.2.2.2)

/-- Helper for `isqrt`: starting from a candidate `k` with `k * k ≤ m`,
climb to the largest such candidate.  The fuel dominates the climb. -/
def isqrtLoop : Nat → Nat → Nat → Nat
  | 0, _, k => k
  | fuel+1, m, k => if (k + 1) * (k + 1) ≤ m then isqrtLoop fuel m (k + 1) else k

/-- `math.isqrt(m)` for `m ≥ 0`: the integer square root, as an executable
definition (proved equal to `Nat.sqrt` below). -/
def isqrt (m : Nat) : Nat := isqrtLoop m m 0

/-- The `for i in range(3, isqrt(n) + 1, 2)` trial-division loop of
`is_prime`, on the (positive) value `m = n`: returns `false` iff some probed
`i` divides `m`.  The fuel dominates the number of probes. -/
def trialDivOdd : Nat → Nat → Nat → Bool
  | 0, _, _ => true
  | fuel+1, m, i =>
    if i ≤ isqrt m then
      (if m % i = 0 then false else trialDivOdd fuel m (i + 2))
    else true

/-- `is_prime(n)` from `rsa_app.py`: trial division by 2 and by the odd
numbers up to `isqrt(n)`.  For the loop the (by then positive) `n` is moved
to `Nat`, where Python's `%` and `math.isqrt` agree with `Nat.mod` and
`Nat.sqrt`. -/
def is_prime (n : Int) : Bool :=
  if n < 2 then false
  else if n = 2 then true
  else if n.fmod 2 = 0 then false
  else trialDivOdd n.toNat n.toNat 3

/-- The fallback `for e in range(3, phi, 2)` loop of `find_valid_e`: scan
odd candidates from `e` upward while they stay below `phi`, returning the
first one coprime to `phi`.  The fuel dominates the number of candidates. -/
def oddScan : Nat → Int → Int → Option Int
  | 0, _, _ => none
  | fuel+1, e, phi =>
    if e < phi then
      (if Int.gcd e phi = 1 then some e else oddScan fuel (e + 2) phi)
    else none

/-- `find_valid_e(phi)` from `rsa_app.py`: first matching candidate from the
preference list `[65537, 17, 5, 3]`, else the brute-force odd scan, else 2.
Python's `math.gcd` on possibly-negative ints is `Int.gcd`. -/
def find_valid_e (phi : Int) : Int :=
  match ([65537, 17, 5, 3] : List Int).find? (fun c => decide (c < phi ∧ Int.gcd c phi = 1)) with
  | some c => c
  | none =>
    match oddScan phi.toNat 3 phi with
    | some e => e
    | none => 2

/-- The RSA key/cipher state held on the `RSAApp` instance: `self.n`,
`self.phi`, `self.e`, `self.d` (all initialized to `None`),
`self.keys_ready`, and `self.last_cipher`. -/
structure SessionState where
  n : Option Int
  phi : Option Int
  e : Option Int
  d : Option Int
  keys_ready : Bool
  last_cipher : Option Int
  deriving DecidableEq

/-- Outcome of `RSAApp._generate_keys`: each early-`return` error path, the
propagated-exception path, or success carrying the new key material. -/
inductive KeygenResult where
  | notPrime (v : Int) : KeygenResult
  | equalPrimes : KeygenResult
  | noInverse : KeygenResult
  | exn : KeygenResult
  | ok (n phi e d : Int) : KeygenResult
  deriving DecidableEq

/-- `RSAApp._generate_keys` from `rsa_app.py`, restricted to its effect on
the session key state (log/UI writes are presentation and not modelled; the
integer parse of the entry widgets is the caller supplying `p q e0 : Int`).
The state fields are assigned only at the very end, after `d` was computed. -/
def generate_keys (st : SessionState) (p q e0 : Int) : KeygenResult × SessionState :=
  if ¬ is_prime p then (KeygenResult.notPrime p, st)
  else if ¬ is_prime q then (KeygenResult.notPrime q, st)
  else if p = q then (KeygenResult.equalPrimes, st)
  else
    let n := p * q
    let phi := (p - 1) * (q - 1)
    let e := if ¬ (1 < e0 ∧ e0 < phi) ∨ Int.gcd e0 phi ≠ 1 then find_valid_e phi else e0
    match mod_inverse e phi with
    | none => (KeygenResult.exn, st)
    | some (none, _) => (KeygenResult.noInverse, st)
    | some (some d, _) =>
      (KeygenResult.ok n phi e d,
        { st with n := some n, phi := some phi, e := some e, d := some d, keys_ready := true })

/-- Outcome of `RSAApp._encrypt`: the early-`return` paths (no keys yet, or
`m` out of range), the unreachable-in-Python states, or success carrying the
ciphertext. -/
inductive EncryptResult where
  | noKeys : EncryptResult
  | badState : EncryptResult
  | outOfRange : EncryptResult
  | exn : EncryptResult
  | ok (c : Int) : EncryptResult
  deriving DecidableEq

/-- `RSAApp._encrypt` from `rsa_app.py`, restricted to its effect on the
session state: `self.last_cipher = c` happens only on the success path. -/
def encrypt (st : SessionState) (m : Int) : EncryptResult × SessionState :=
  if ¬ st.keys_ready then (EncryptResult.noKeys, st)
  else
    match st.n, st.e with
    | some n, some e =>
      if ¬ (0 < m ∧ m < n) then (EncryptResult.outOfRange, st)
      else
        match fast_pow_steps m e n with
        | none => (EncryptResult.exn, st)
        | some (c, _) => (EncryptResult.ok c, { st with last_cipher := some c })
    | _, _ => (EncryptResult.badState, st)

/-! ### Lemmas about `fastPowLoop` and `fast_pow_steps` -/

/-- For a nonpositive exponent the `while e > 0` loop body never runs. -/
lemma fastPowLoop_nonpos (fuel : Nat) (mod b res e : Int) (k : Nat) (he : e ≤ 0) :
    fastPowLoop fuel mod b res e k = (res, []) := by
  cases fuel with
  | zero => rfl
  | succ fuel => simp [fastPowLoop, not_lt.mpr he]

/-- Casting helper: Python `e % 2` on a natural exponent. -/
lemma fmod_two_cast (n : Nat) : ((n : Int)).fmod 2 = ((n % 2 : Nat) : Int) := by
  rw [Int.fmod_eq_emod _ (by norm_num)]
  exact_mod_cast (Int.ofNat_emod n 2).symm

/-- Casting helper: Python `e // 2` on a natural exponent. -/
lemma fdiv_two_cast (n : Nat) : ((n : Int)).fdiv 2 = ((n / 2 : Nat) : Int) := by
  rw [Int.fdiv_eq_ediv _ (by norm_num)]
  exact_mod_cast (Int.ofNat_ediv n 2).symm

/-- Loop invariant of `fast_pow_steps`: with enough fuel and a positive
exponent, the loop computes `res * b ^ n` modulo `mod`. -/
lemma fastPowLoop_spec (mod : Int) (hmod : 0 < mod) :
    ∀ fuel n : Nat, n < fuel → 0 < n → ∀ b res : Int, ∀ k : Nat,
      (fastPowLoop fuel mod b res (n : Int) k).1 = (res * b ^ n) % mod := by
  intro fuel
  induction fuel with
  | zero => intro n hn; omega
  | succ fuel ih =>
    intro n hn hpos b res k
    have h0 : (0 : Int) < (n : Int) := by exact_mod_cast hpos
    have hsplit : 2 * (n / 2) + n % 2 = n := Nat.div_add_mod n 2
    by_cases hodd : n % 2 = 1
    · simp only [fastPowLoop, if_pos h0, fmod_two_cast, fdiv_two_cast, hodd,
        Nat.cast_one, if_pos rfl]
      by_cases hn2 : n / 2 = 0
      · have hn1 : n = 1 := by omega
        rw [hn2, Nat.cast_zero, fastPowLoop_nonpos _ _ _ _ _ _ le_rfl]
        subst hn1
        rw [Int.fmod_eq_emod _ hmod.le, pow_one]
        simp
      · have hlt : n / 2 < fuel := lt_of_lt_of_le (Nat.div_lt_self hpos one_lt_two) (by omega)
        rw [ih (n / 2) hlt (Nat.pos_of_ne_zero hn2)]
        have h1 : Int.ModEq mod ((res * b).fmod mod) (res * b) := by
          rw [Int.fmod_eq_emod _ hmod.le]; exact Int.mod_modEq _ _
        have h2 : Int.ModEq mod (((b * b).fmod mod) ^ (n / 2)) ((b * b) ^ (n / 2)) := by
          rw [Int.fmod_eq_emod _ hmod.le]; exact (Int.mod_modEq _ _).pow _
        have h3 := h1.mul h2
        have h4 : res * b * (b * b) ^ (n / 2) = res * b ^ n := by
          have : b * b = b ^ 2 := (sq b).symm
          rw [this, ← pow_mul, mul_assoc, ← pow_succ']
          congr 2
          omega
        rw [← h4]
        exact h3.eq
    · have hodd0 : n % 2 = 0 := by omega
      have hne : ¬ ((n % 2 : Nat) : Int) = 1 := by rw [hodd0]; norm_num
      simp only [fastPowLoop, if_pos h0, fmod_two_cast, fdiv_two_cast, if_neg hne]
      have hn2 : n / 2 ≠ 0 := by omega
      have hlt : n / 2 < fuel := lt_of_lt_of_le (Nat.div_lt_self hpos one_lt_two) (by omega)
      rw [ih (n / 2) hlt (Nat.pos_of_ne_zero hn2)]
      have h2 : Int.ModEq mod (((b * b).fmod mod) ^ (n / 2)) ((b * b) ^ (n / 2)) := by
        rw [Int.fmod_eq_emod _ hmod.le]; exact (Int.mod_modEq _ _).pow _
      have h3 := h2.mul_left res
      have h4 : res * (b * b) ^ (n / 2) = res * b ^ n := by
        have : b * b = b ^ 2 := (sq b).symm
        rw [this, ← pow_mul]
        congr 2
        omega
      rw [← h4]
      exact h3.eq

/-- With a positive modulus and positive exponent, `fast_pow_steps` returns
`base ^ exp % mod`. -/
lemma fast_pow_steps_result (base exp mod : Int) (hmod : 0 < mod) (hexp : 0 < exp) :
    (fast_pow_steps base exp mod).map Prod.fst = some (base ^ exp.toNat % mod) := by
  obtain ⟨n, rfl⟩ : ∃ n : Nat, exp = (n : Int) := ⟨exp.toNat, (Int.toNat_of_nonneg hexp.le).symm⟩
  have hn : 0 < n := by exact_mod_cast hexp
  unfold fast_pow_steps
  rw [if_neg hmod.ne']
  have hloop : (fastPowLoop (n + 1) mod (base.fmod mod) 1 (n : Int) 1).1 =
      base ^ n % mod := by
    rw [fastPowLoop_spec mod hmod _ _ (Nat.lt_succ_self _) hn, one_mul,
      Int.fmod_eq_emod _ hmod.le]
    exact ((Int.mod_modEq base mod).pow _).eq
  simp [hloop]

/-- With a nonzero modulus and nonpositive exponent, `fast_pow_steps`
returns 1 and a three-entry trace. -/
lemma fast_pow_steps_nonpos (base exp mod : Int) (hmod : mod ≠ 0) (hexp : exp ≤ 0) :
    fast_pow_steps base exp mod =
      some (1, [PowStep.preambleCompute base exp mod, PowStep.preambleBinary exp,
        PowStep.final 1]) := by
  unfold fast_pow_steps
  rw [if_neg hmod]
  simp [fastPowLoop_nonpos _ _ _ _ _ _ hexp]

/-- C2 (amended): for every base, every exponent ≥ 0 and every modulus ≥ 1,
`fast_pow_steps` computes square-and-multiply correctly: whenever the
exponent is ≥ 1 or the modulus is ≥ 2 the result is
`base ^ exponent % modulus`; in the remaining corner (exponent = 0 and
modulus = 1) the result is 1, not `base ^ 0 mod 1 = 0`.  For exponent = 0
the result is 1 with no bit iterations: the trace is exactly the two
preamble entries followed by the final entry. -/
theorem fast_pow_steps_correct (base exp mod : Int) (hexp : 0 ≤ exp) (hmod : 1 ≤ mod) :
    ((1 ≤ exp ∨ 2 ≤ mod) →
      (fast_pow_steps base exp mod).map Prod.fst = some (base ^ exp.toNat % mod))
    ∧ (exp = 0 →
      fast_pow_steps base exp mod =
        some (1, [PowStep.preambleCompute base exp mod, PowStep.preambleBinary exp,
          PowStep.final 1])) := by
  constructor
  · rintro (h | h)
    · exact fast_pow_steps_result base exp mod (by omega) (by omega)
    · rcases eq_or_lt_of_le hexp with h0 | h0
      · have h0' : exp = 0 := h0.symm
        subst h0'
        rw [fast_pow_steps_nonpos base 0 mod (by omega) le_rfl]
        have h1 : (1 : Int) % mod = 1 := Int.emod_eq_of_lt (by norm_num) (by omega)
        simp [h1]
      · exact fast_pow_steps_result base exp mod (by omega) h0
  · intro h0
    exact fast_pow_steps_nonpos base exp mod (by omega) (by omega)

/-- Witness for C2 at base 3, exponent 4, modulus 5 (`3 ^ 4 mod 5 = 1`). -/
theorem fast_pow_steps_correct_witness :
    ((0 : Int) ≤ 4 ∧ (1 : Int) ≤ 5) ∧
      ((((1 : Int) ≤ 4 ∨ (2 : Int) ≤ 5) →
        (fast_pow_steps 3 4 5).map Prod.fst = some (3 ^ (4 : Int).toNat % 5))
      ∧ ((4 : Int) = 0 →
        fast_pow_steps 3 4 5 =
          some (1, [PowStep.preambleCompute 3 4 5, PowStep.preambleBinary 4,
            PowStep.final 1]))) :=
  ⟨⟨by decide, by decide⟩, fast_pow_steps_correct 3 4 5 (by decide) (by decide)⟩

/-- C2 counterexample: at base 3, exponent 0, modulus 1 (allowed by the
claim, which demands modulus ≥ 1 only) the code returns 1 while
`3 ^ 0 mod 1 = 0`. -/
theorem fast_pow_steps_correct_cex :
    (fast_pow_steps 3 0 1).map Prod.fst = some 1
      ∧ (3 : Int) ^ (0 : Int).toNat % 1 = 0 ∧ (1 : Int) ≠ 0 :=
  ⟨by decide, by decide, by decide⟩

/-- C5 (amended): for every base and every exponent ≥ 1,
`fast_pow_steps(b, e, 1)` returns result 0.  (For exponent ≤ 0 the bit loop
never runs and the result is 1, so the unrestricted claim fails.) -/
theorem fast_pow_steps_mod_one (b e : Int) (he : 1 ≤ e) :
    (fast_pow_steps b e 1).map Prod.fst = some 0 := by
  have h := fast_pow_steps_result b e 1 one_pos (by omega)
  rwa [Int.emod_one] at h

/-- Witness for C5 at base 7, exponent 5. -/
theorem fast_pow_steps_mod_one_witness :
    (1 : Int) ≤ 5 ∧ (fast_pow_steps 7 5 1).map Prod.fst = some 0 :=
  ⟨by decide, fast_pow_steps_mod_one 7 5 (by decide)⟩

/-- C5 counterexample: `fast_pow_steps(2, 0, 1)` returns 1, not 0, so
"modulus = 1 always yields 0, with no restriction on the exponent" fails at
exponent 0. -/
theorem fast_pow_steps_mod_one_cex :
    (fast_pow_steps 2 0 1).map Prod.fst = some 1 ∧ (1 : Int) ≠ 0 :=
  ⟨by decide, by decide⟩

/-- C10: for every base, every nonzero modulus and every strictly negative
exponent, `fast_pow_steps` returns result 1 (the loop runs only while the
exponent is positive) and the trace consists of exactly the two preamble
entries and the final entry. -/
theorem fast_pow_steps_neg_exp (base exp mod : Int) (hmod : mod ≠ 0) (hexp : exp < 0) :
    fast_pow_steps base exp mod =
      some (1, [PowStep.preambleCompute base exp mod, PowStep.preambleBinary exp,
        PowStep.final 1]) :=
  fast_pow_steps_nonpos base exp mod hmod hexp.le

/-- Witness for C10 at base 5, exponent −3, modulus 7. -/
theorem fast_pow_steps_neg_exp_witness :
    ((7 : Int) ≠ 0 ∧ (-3 : Int) < 0) ∧
      fast_pow_steps 5 (-3) 7 =
        some (1, [PowStep.preambleCompute 5 (-3) 7, PowStep.preambleBinary (-3),
          PowStep.final 1]) :=
  ⟨⟨by decide, by decide⟩, fast_pow_steps_neg_exp 5 (-3) 7 (by decide) (by decide)⟩

/-! ### Lemmas about `egcdLoop`, `extended_gcd` and `mod_inverse` -/

/-- Python's floor-mod by a nonzero divisor is smaller than the divisor in
absolute value (this is the Euclidean descent of `extended_gcd`). -/
lemma natAbs_fmod_lt (a b : Int) (hb : b ≠ 0) : (a.fmod b).natAbs < b.natAbs := by
  cases a with
  | ofNat m =>
    cases b with
    | ofNat n =>
      have hn : n ≠ 0 := by simpa using hb
      have he : Int.fmod (Int.ofNat m) (Int.ofNat n) = Int.ofNat (m % n) :=
        (Int.ofNat_fmod m n).symm
      rw [he]
      simpa using Nat.mod_lt _ (Nat.pos_of_ne_zero hn)
    | negSucc n =>
      cases m with
      | zero =>
        rw [show Int.ofNat 0 = 0 from rfl, Int.zero_fmod]
        simp [Int.natAbs_negSucc]
      | succ m =>
        have he : Int.fmod (Int.ofNat (m + 1)) (Int.negSucc n) =
            Int.subNatNat (m % (n + 1)) n := rfl
        rw [he, Int.subNatNat_eq_coe, Int.natAbs_negSucc]
        have h1 : m % (n + 1) < n + 1 := Nat.mod_lt _ (Nat.succ_pos n)
        omega
  | negSucc m =>
    cases b with
    | ofNat n =>
      have hn : n ≠ 0 := by simpa using hb
      have he : Int.fmod (Int.negSucc m) (Int.ofNat n) =
          Int.subNatNat n (m % n + 1) := rfl
      rw [he, Int.subNatNat_eq_coe]
      have h1 : m % n < n := Nat.mod_lt _ (Nat.pos_of_ne_zero hn)
      have h2 : (Int.ofNat n).natAbs = n := rfl
      omega
    | negSucc n =>
      have he : Int.fmod (Int.negSucc m) (Int.negSucc n) =
          -Int.ofNat ((m + 1) % (n + 1)) := rfl
      rw [he, Int.natAbs_negSucc, Int.natAbs_neg]
      have h1 : (m + 1) % (n + 1) < n + 1 := Nat.mod_lt _ (Nat.succ_pos n)
      have h2 : (Int.ofNat ((m + 1) % (n + 1))).natAbs = (m + 1) % (n + 1) := rfl
      omega

/-- The gcd is invariant under one step of the Euclidean recurrence. -/
lemma gcd_sub_mul (a r q : Int) : Int.gcd r (a - q * r) = Int.gcd a r := by
  apply Nat.dvd_antisymm
  · rw [← Int.natCast_dvd_natCast]
    apply Int.dvd_gcd
    · have h1 : (↑(Int.gcd r (a - q * r)) : Int) ∣ r := Int.gcd_dvd_left
      have h2 : (↑(Int.gcd r (a - q * r)) : Int) ∣ a - q * r := Int.gcd_dvd_right
      have h3 := dvd_add h2 (h1.mul_left q)
      simpa using h3
    · exact Int.gcd_dvd_left
  · rw [← Int.natCast_dvd_natCast]
    apply Int.dvd_gcd
    · exact Int.gcd_dvd_right
    · exact dvd_sub Int.gcd_dvd_left (Int.gcd_dvd_right.mul_left q)

/-- Loop invariant of `extended_gcd`: with enough fuel, the loop maintains
the Bézout identities and computes the gcd up to sign (positive whenever the
current remainder is positive), and a zero remainder returns the first
triple unchanged. -/
lemma egcdLoop_spec (a b : Int) :
    ∀ fuel : Nat, ∀ old_r old_s old_t r s t : Int, r.natAbs < fuel →
      a * old_s + b * old_t = old_r → a * s + b * t = r →
      (a * (egcdLoop fuel old_r old_s old_t r s t).2.1
          + b * (egcdLoop fuel old_r old_s old_t r s t).2.2.1
          = (egcdLoop fuel old_r old_s old_t r s t).1)
      ∧ (egcdLoop fuel old_r old_s old_t r s t).1.natAbs = Int.gcd old_r r
      ∧ (0 < r → 0 < (egcdLoop fuel old_r old_s old_t r s t).1)
      ∧ (r = 0 → egcdLoop fuel old_r old_s old_t r s t = (old_r, old_s, old_t, [])) := by
  intro fuel
  induction fuel with
  | zero => intro old_r old_s old_t r s t hfuel; omega
  | succ fuel ih =>
    intro old_r old_s old_t r s t hfuel h1 h2
    by_cases hr : r = 0
    · subst hr
      have heq : egcdLoop (fuel + 1) old_r old_s old_t 0 s t = (old_r, old_s, old_t, []) := by
        simp [egcdLoop]
      rw [heq]
      exact ⟨h1, (Int.gcd_zero_right old_r).symm, fun h => absurd h (lt_irrefl 0),
        fun _ => rfl⟩
    · have hmodeq : old_r - old_r.fdiv r * r = old_r.fmod r := by
        rw [Int.fmod_def]; ring
      have hlt : (old_r - old_r.fdiv r * r).natAbs < r.natAbs := by
        rw [hmodeq]; exact natAbs_fmod_lt old_r r hr
      have hfuel' : (old_r - old_r.fdiv r * r).natAbs < fuel := by omega
      have h2' : a * (old_s - old_r.fdiv r * s) + b * (old_t - old_r.fdiv r * t) =
          old_r - old_r.fdiv r * r := by linear_combination h1 - old_r.fdiv r * h2
      obtain ⟨ih1, ih2, ih3, ih4⟩ :=
        ih r s t (old_r - old_r.fdiv r * r) (old_s - old_r.fdiv r * s)
          (old_t - old_r.fdiv r * t) hfuel' h2 h2'
      have heq : egcdLoop (fuel + 1) old_r old_s old_t r s t =
          ((egcdLoop fuel r s t (old_r - old_r.fdiv r * r) (old_s - old_r.fdiv r * s)
              (old_t - old_r.fdiv r * t)).1,
            (egcdLoop fuel r s t (old_r - old_r.fdiv r * r) (old_s - old_r.fdiv r * s)
              (old_t - old_r.fdiv r * t)).2.1,
            (egcdLoop fuel r s t (old_r - old_r.fdiv r * r) (old_s - old_r.fdiv r * s)
              (old_t - old_r.fdiv r * t)).2.2.1,
            EgcdStep.iter (old_r.fdiv r) r s t (old_r - old_r.fdiv r * r)
                (old_s - old_r.fdiv r * s) (old_t - old_r.fdiv r * t) ::
              (egcdLoop fuel r s t (old_r - old_r.fdiv r * r) (old_s - old_r.fdiv r * s)
                (old_t - old_r.fdiv r * t)).2.2.2) := by
        simp [egcdLoop, hr]
      refine ⟨?_, ?_, ?_, fun h => absurd h hr⟩
      · rw [heq]; exact ih1
      · rw [heq, ← gcd_sub_mul old_r r (old_r.fdiv r)]
        exact ih2
      · intro hrpos
        rw [heq]
        have hnn : 0 ≤ old_r - old_r.fdiv r * r := by
          rw [hmodeq]; exact Int.fmod_nonneg' old_r hrpos
        rcases eq_or_lt_of_le hnn with h0 | h0
        · rw [ih4 h0.symm]
          exact hrpos
        · exact ih3 h0

/-- Specification of `extended_gcd`: Bézout identity, gcd up to sign
(exact when `b > 0`), and the `b = 0` edge case. -/
lemma extended_gcd_spec (a b : Int) :
    (a * (extended_gcd a b).2.1 + b * (extended_gcd a b).2.2.1 = (extended_gcd a b).1)
    ∧ (extended_gcd a b).1.natAbs = Int.gcd a b
    ∧ (0 < b → (extended_gcd a b).1 = Int.gcd a b)
    ∧ (b = 0 → (extended_gcd a b).1 = a ∧ (extended_gcd a b).2.1 = 1
        ∧ (extended_gcd a b).2.2.1 = 0) := by
  obtain ⟨h1, h2, h3, h4⟩ :=
    egcdLoop_spec a b (b.natAbs + 1) a 1 0 b 0 1 (Nat.lt_succ_self _) (by ring) (by ring)
  have e1 : (extended_gcd a b).1 = (egcdLoop (b.natAbs + 1) a 1 0 b 0 1).1 := rfl
  have e2 : (extended_gcd a b).2.1 = (egcdLoop (b.natAbs + 1) a 1 0 b 0 1).2.1 := rfl
  have e3 : (extended_gcd a b).2.2.1 = (egcdLoop (b.natAbs + 1) a 1 0 b 0 1).2.2.1 := rfl
  refine ⟨?_, ?_, fun hb => ?_, fun hb => ?_⟩
  · rw [e1, e2, e3]; exact h1
  · rw [e1]; exact h2
  · have hpos := h3 hb
    rw [e1, ← Int.natAbs_of_nonneg hpos.le]
    exact_mod_cast h2
  · have h := h4 hb
    exact ⟨by rw [e1, h], by rw [e2, h], by rw [e3, h]⟩

/-- C3 (amended): for every pair of integers `a`, `b`, `extended_gcd(a, b)`
returns `(g, x, y, trace)` with `a*x + b*y = g` and `|g| = gcd(a, b)`; `g`
equals `gcd(a, b)` itself whenever `b > 0`, and for `b = 0` the loop body
never executes and the result is `g = a, x = 1, y = 0` (so for negative `a`
with `b = 0`, and more generally for negative `b`, `g` can be the negative
of `gcd(a, b)`). -/
theorem extended_gcd_bezout (a b : Int) :
    ∃ g x y tr, extended_gcd a b = (g, x, y, tr)
      ∧ a * x + b * y = g
      ∧ g.natAbs = Int.gcd a b
      ∧ (0 < b → g = Int.gcd a b)
      ∧ (b = 0 → g = a ∧ x = 1 ∧ y = 0) := by
  obtain ⟨h1, h2, h3, h4⟩ := extended_gcd_spec a b
  exact ⟨_, _, _, _, rfl, h1, h2, h3, h4⟩

/-- Witness for C3 at `(240, 46)` (gcd 2 = 240·(−9) + 46·47). -/
theorem extended_gcd_bezout_witness :
    ∃ g x y tr, extended_gcd 240 46 = (g, x, y, tr)
      ∧ 240 * x + 46 * y = g
      ∧ g.natAbs = Int.gcd 240 46
      ∧ ((0 : Int) < 46 → g = Int.gcd 240 46)
      ∧ ((46 : Int) = 0 → g = 240 ∧ x = 1 ∧ y = 0) :=
  extended_gcd_bezout 240 46

/-- C3 counterexample: `extended_gcd(-4, 0)` returns gcd component −4,
while `gcd(-4, 0) = 4`, so "gcd = gcd(a, b)" fails for every pair of
integers as claimed. -/
theorem extended_gcd_bezout_cex :
    (extended_gcd (-4) 0).1 = -4 ∧ (Int.gcd (-4) 0 : Int) = 4 ∧ (-4 : Int) ≠ 4 :=
  ⟨by decide, by decide, by decide⟩

/-- When the gcd returned by the solver is not 1, `mod_inverse` signals "no
inverse" and returns the solver's trace. -/
lemma mod_inverse_of_gcd_ne_one (e phi : Int) (h : Int.gcd e phi ≠ 1) :
    mod_inverse e phi = some (none, (extended_gcd e phi).2.2.2) := by
  have hg : (extended_gcd e phi).1 ≠ 1 := by
    intro h1
    apply h
    have h2 := (extended_gcd_spec e phi).2.1
    rw [h1] at h2
    simpa using h2.symm
  simp only [mod_inverse]
  rw [if_pos hg]

/-- When `phi > 0` and `gcd(e, phi) = 1`, `mod_inverse` returns
`d = x % phi ∈ [0, phi)` with `e·d ≡ 1 (mod phi)`. -/
lemma mod_inverse_of_gcd_one (e phi : Int) (hphi : 0 < phi) (h : Int.gcd e phi = 1) :
    mod_inverse e phi =
        some (some ((extended_gcd e phi).2.1 % phi), (extended_gcd e phi).2.2.2)
      ∧ 0 ≤ (extended_gcd e phi).2.1 % phi
      ∧ (extended_gcd e phi).2.1 % phi < phi
      ∧ Int.ModEq phi (e * ((extended_gcd e phi).2.1 % phi)) 1 := by
  obtain ⟨hbez, hnat, hposg, -⟩ := extended_gcd_spec e phi
  have hg1 : (extended_gcd e phi).1 = 1 := by
    rw [hposg hphi, h, Nat.cast_one]
  refine ⟨?_, Int.emod_nonneg _ hphi.ne', Int.emod_lt_of_pos _ hphi, ?_⟩
  · have hpym : pymod (extended_gcd e phi).2.1 phi =
        some ((extended_gcd e phi).2.1 % phi) := by
      simp only [pymod]
      rw [if_neg hphi.ne', Int.fmod_eq_emod _ hphi.le]
    simp only [mod_inverse, hpym]
    rw [if_neg (by simp [hg1] : ¬ ((extended_gcd e phi).1 ≠ 1))]
  · have h1 : Int.ModEq phi (e * ((extended_gcd e phi).2.1 % phi))
        (e * (extended_gcd e phi).2.1) := (Int.mod_modEq _ _).mul_left e
    have h2 : e * (extended_gcd e phi).2.1 =
        1 + phi * (-(extended_gcd e phi).2.2.1) := by
      rw [hg1] at hbez
      linarith
    refine h1.trans ?_
    rw [h2]
    exact Int.modEq_add_fac_self

/-- C4 (amended): for every pair of integers `e`, `phi` with `phi > 0`,
`mod_inverse(e, phi)` returns the no-inverse signal (`None`) together with
the solver's trace exactly when `gcd(e, phi) ≠ 1` (e.g. `mod_inverse(4, 8)`);
otherwise it returns `d = x mod phi` normalized into `[0, phi)` regardless
of the sign of the Bézout coefficient `x`, and when `phi > 1` this `d`
satisfies `(e·d) mod phi = 1`.  (For `phi = 1` it returns `d = 0` with
`(e·d) mod 1 = 0 ≠ 1`, so the original claim needs `phi > 1` there.) -/
theorem mod_inverse_spec (e phi : Int) (hphi : 0 < phi) :
    (Int.gcd e phi ≠ 1 → mod_inverse e phi = some (none, (extended_gcd e phi).2.2.2))
    ∧ (Int.gcd e phi = 1 →
        ∃ d, mod_inverse e phi = some (some d, (extended_gcd e phi).2.2.2)
          ∧ 0 ≤ d ∧ d < phi ∧ (1 < phi → (e * d) % phi = 1)) := by
  refine ⟨mod_inverse_of_gcd_ne_one e phi, fun h => ?_⟩
  obtain ⟨hmi, h0, h1, hmod⟩ := mod_inverse_of_gcd_one e phi hphi h
  refine ⟨_, hmi, h0, h1, fun hphi1 => ?_⟩
  calc (e * ((extended_gcd e phi).2.1 % phi)) % phi = 1 % phi := hmod
    _ = 1 := Int.emod_eq_of_lt (by norm_num) hphi1

/-- Witness for C4 at `(4, 8)` (the spec's own example: gcd 4 ≠ 1 signals
"no inverse"). -/
theorem mod_inverse_spec_witness :
    (0 : Int) < 8 ∧
      ((Int.gcd 4 8 ≠ 1 → mod_inverse 4 8 = some (none, (extended_gcd 4 8).2.2.2))
        ∧ (Int.gcd 4 8 = 1 →
            ∃ d, mod_inverse 4 8 = some (some d, (extended_gcd 4 8).2.2.2)
              ∧ 0 ≤ d ∧ d < 8 ∧ ((1 : Int) < 8 → (4 * d) % 8 = 1))) :=
  ⟨by decide, mod_inverse_spec 4 8 (by decide)⟩

/-- C4 counterexample: `phi = 1` satisfies `phi > 0` and `gcd(5, 1) = 1`,
but the returned `d = 0` has `(5·0) mod 1 = 0 ≠ 1`. -/
theorem mod_inverse_spec_cex :
    (mod_inverse 5 1).map Prod.fst = some (some 0) ∧ ((5 * 0 : Int) % 1) ≠ 1 :=
  ⟨by decide, by decide⟩

/-- C9 (amended): `mod_inverse` is not total: `mod_inverse(1, 0)` reaches
the unguarded normalization `x % phi` with `phi = 0` and raises
(`none` here) instead of returning a value or the no-inverse signal. -/
theorem mod_inverse_not_total : mod_inverse 1 0 = none := by decide

/-- C9 counterexample: the claim's "any e with gcd(e, 0) = 1 (that is,
e = 1 or e = -1)" is too broad: for `e = -1` the solver returns gcd `-1 ≠ 1`,
so `mod_inverse(-1, 0)` takes the no-inverse branch and returns normally
without reaching the modulo-by-zero. -/
theorem mod_inverse_not_total_cex :
    Int.gcd (-1) 0 = 1 ∧ (mod_inverse (-1) 0).map Prod.fst = some none :=
  ⟨by decide, by decide⟩

/-! ### RSA correctness (Fermat/CRT argument) -/

/-- Fermat's little theorem, in the form needed for RSA: for a prime `P`
and an exponent of the form `k·(P−1) + 1`, `P` divides `m^(k(P−1)+1) − m`
for every integer `m`. -/
lemma pow_totient_prime_side (P : Nat) (hp : P.Prime) (k : Nat) (m : Int) :
    (P : Int) ∣ m ^ (k * (P - 1) + 1) - m := by
  haveI : Fact P.Prime := ⟨hp⟩
  rw [← ZMod.intCast_zmod_eq_zero_iff_dvd]
  push_cast
  by_cases hm : (m : ZMod P) = 0
  · rw [hm, zero_pow (by omega : k * (P - 1) + 1 ≠ 0)]
    simp
  · have h1 : (m : ZMod P) ^ (P - 1) = 1 := ZMod.pow_card_sub_one_eq_one hm
    have h2 : (m : ZMod P) ^ (k * (P - 1) + 1) = (m : ZMod P) := by
      rw [pow_succ, mul_comm k (P - 1), pow_mul, h1, one_pow, one_mul]
    rw [h2, sub_self]

/-- The RSA core congruence: for distinct primes `P ≠ Q` and any exponent
`s + 1` with `(P−1)(Q−1) ∣ s`, `P·Q` divides `m^(s+1) − m` for every
integer `m` (no coprimality assumption on `m`). -/
lemma rsa_core (P Q : Nat) (hp : P.Prime) (hq : Q.Prime) (hpq : P ≠ Q) (s : Nat)
    (hs : (P - 1) * (Q - 1) ∣ s) (m : Int) :
    ((P : Int) * Q) ∣ m ^ (s + 1) - m := by
  have hP : (P : Int) ∣ m ^ (s + 1) - m := by
    obtain ⟨k, hk⟩ := dvd_trans (dvd_mul_right (P - 1) (Q - 1)) hs
    rw [hk, mul_comm]
    exact pow_totient_prime_side P hp k m
  have hQ : (Q : Int) ∣ m ^ (s + 1) - m := by
    obtain ⟨k, hk⟩ := dvd_trans (dvd_mul_left (Q - 1) (P - 1)) hs
    rw [hk, mul_comm]
    exact pow_totient_prime_side Q hq k m
  have hco : IsCoprime (P : Int) (Q : Int) :=
    Nat.isCoprime_iff_coprime.mpr ((Nat.coprime_primes hp hq).mpr hpq)
  exact hco.mul_dvd hP hQ

/-- C1: for every pair of distinct primes `p ≠ q` and every key material
produced by key generation — `n = p·q`, `phi = (p−1)(q−1)`, a validated
public exponent `e` (`1 < e`, coprime to `phi` because `mod_inverse`
succeeded), and `d` the value returned by `mod_inverse(e, phi)` —
decrypting an encryption is the identity on every plaintext `0 < m < n`:
`fast_pow_steps(fast_pow_steps(m, e, n).result, d, n).result = m`. -/
theorem rsa_roundtrip (p q : Nat) (hp : Nat.Prime p) (hq : Nat.Prime q) (hpq : p ≠ q)
    (e d m : Int) (he : 1 < e)
    (hd : (mod_inverse e (((p : Int) - 1) * ((q : Int) - 1))).map Prod.fst = some (some d))
    (hm0 : 0 < m) (hmn : m < (p : Int) * q) :
    ∃ c, (fast_pow_steps m e ((p : Int) * q)).map Prod.fst = some c
      ∧ (fast_pow_steps c d ((p : Int) * q)).map Prod.fst = some m := by
  have hp2 : 2 ≤ p := hp.two_le
  have hq2 : 2 ≤ q := hq.two_le
  have hp3 : 3 ≤ p ∨ 3 ≤ q := by omega
  have hpz : (2 : Int) ≤ (p : Int) := by exact_mod_cast hp2
  have hqz : (2 : Int) ≤ (q : Int) := by exact_mod_cast hq2
  set phi : Int := ((p : Int) - 1) * ((q : Int) - 1) with hphidef
  have hphi2 : 2 ≤ phi := by
    rcases hp3 with h | h
    · have h3 : (3 : Int) ≤ (p : Int) := by exact_mod_cast h
      nlinarith
    · have h3 : (3 : Int) ≤ (q : Int) := by exact_mod_cast h
      nlinarith
  have hphi0 : 0 < phi := by omega
  by_cases hg : Int.gcd e phi = 1
  case neg =>
    rw [mod_inverse_of_gcd_ne_one e phi hg] at hd
    simp at hd
  obtain ⟨hmi, hd0, hdlt, hmod⟩ := mod_inverse_of_gcd_one e phi hphi0 hg
  rw [hmi] at hd
  simp at hd
  subst hd
  set d := (extended_gcd e phi).2.1 % phi with hddef
  have hmod1 : (e * d) % phi = 1 := by
    calc (e * d) % phi = 1 % phi := hmod
      _ = 1 := Int.emod_eq_of_lt (by norm_num) (by omega)
  have hdpos : 0 < d := by
    rcases eq_or_lt_of_le hd0 with h0 | h0
    · exfalso
      rw [← h0, mul_zero] at hmod1
      simp at hmod1
    · exact h0
  have hn0 : (0 : Int) < (p : Int) * q := by nlinarith
  have hc := fast_pow_steps_result m e ((p : Int) * q) hn0 (by omega)
  refine ⟨m ^ e.toNat % ((p : Int) * q), hc, ?_⟩
  have hd2 := fast_pow_steps_result (m ^ e.toNat % ((p : Int) * q)) d ((p : Int) * q)
    hn0 hdpos
  rw [hd2]
  congr 1
  set n : Int := (p : Int) * q with hndef
  have hEe : ((e.toNat : Nat) : Int) = e := Int.toNat_of_nonneg (by omega)
  have hDd : ((d.toNat : Nat) : Int) = d := Int.toNat_of_nonneg hd0
  have hdvd : phi ∣ e * d - 1 := by
    have h1 := Int.modEq_iff_dvd.mp hmod
    have h2 := dvd_neg.mpr h1
    rwa [neg_sub] at h2
  have hphiN : phi = (((p - 1) * (q - 1) : Nat) : Int) := by
    rw [hphidef]
    push_cast [Nat.cast_sub (by omega : 1 ≤ p), Nat.cast_sub (by omega : 1 ≤ q)]
    ring
  have hED1 : 1 ≤ e.toNat * d.toNat := by
    have h1 : 2 ≤ e.toNat := by omega
    have h2 : 1 ≤ d.toNat := by omega
    exact le_trans (by norm_num) (Nat.mul_le_mul h1 h2)
  have hsN : ((p - 1) * (q - 1) : Nat) ∣ e.toNat * d.toNat - 1 := by
    have h1 : (((p - 1) * (q - 1) : Nat) : Int) ∣ ((e.toNat * d.toNat - 1 : Nat) : Int) := by
      rw [← hphiN]
      push_cast [Nat.cast_sub hED1]
      rw [hEe, hDd]
      exact hdvd
    exact_mod_cast h1
  obtain ⟨k, hk⟩ := hsN
  have hEDk : e.toNat * d.toNat = (p - 1) * (q - 1) * k + 1 := by omega
  have hcore := rsa_core p q hp hq hpq ((p - 1) * (q - 1) * k) (dvd_mul_right _ _) m
  rw [← hEDk] at hcore
  have hstep1 : Int.ModEq n ((m ^ e.toNat % n) ^ d.toNat) (m ^ (e.toNat * d.toNat)) := by
    have h := (Int.mod_modEq (m ^ e.toNat) n).pow d.toNat
    rwa [← pow_mul] at h
  have hstep2 : Int.ModEq n (m ^ (e.toNat * d.toNat)) m := by
    rw [Int.modEq_iff_dvd]
    have h := dvd_neg.mpr hcore
    rwa [neg_sub] at h
  have hfinal : ((m ^ e.toNat % n) ^ d.toNat) % n = m % n := hstep1.trans hstep2
  rw [hfinal]
  exact Int.emod_eq_of_lt hm0.le hmn

/-- Witness for C1 with `p = 3`, `q = 5` (`n = 15`, `phi = 8`, `e = 3`,
`d = 3`): encrypting `m = 2` gives `2^3 mod 15 = 8` and decrypting gives
`8^3 mod 15 = 2`. -/
theorem rsa_roundtrip_witness :
    (Nat.Prime 3 ∧ Nat.Prime 5 ∧ 3 ≠ 5 ∧ (1 : Int) < 3
        ∧ (mod_inverse 3 ((((3 : Nat) : Int) - 1) * (((5 : Nat) : Int) - 1))).map Prod.fst
            = some (some 3)
        ∧ (0 : Int) < 2 ∧ (2 : Int) < ((3 : Nat) : Int) * ((5 : Nat) : Int))
    ∧ ∃ c, (fast_pow_steps 2 3 (((3 : Nat) : Int) * ((5 : Nat) : Int))).map Prod.fst = some c
        ∧ (fast_pow_steps c 3 (((3 : Nat) : Int) * ((5 : Nat) : Int))).map Prod.fst = some 2 :=
  ⟨⟨by decide, by decide, by decide, by decide, by decide, by decide, by decide⟩,
    rsa_roundtrip 3 5 (by decide) (by decide) (by decide) 3 3 2 (by decide)
      (by decide) (by decide) (by decide)⟩

/-! ### Lemmas about `isqrt`, `trialDivOdd` and `is_prime` -/

lemma isqrtLoop_sq_le (m : Nat) : ∀ fuel k, k * k ≤ m →
    isqrtLoop fuel m k * isqrtLoop fuel m k ≤ m := by
  intro fuel
  induction fuel with
  | zero => intro k hk; exact hk
  | succ fuel ih =>
    intro k hk
    by_cases h : (k + 1) * (k + 1) ≤ m
    · rw [show isqrtLoop (fuel + 1) m k = isqrtLoop fuel m (k + 1) from by
        simp [isqrtLoop, h]]
      exact ih (k + 1) h
    · rw [show isqrtLoop (fuel + 1) m k = k from by simp [isqrtLoop, h]]
      exact hk

lemma isqrtLoop_lt_succ (m : Nat) : ∀ fuel k, m ≤ k + fuel →
    m < (isqrtLoop fuel m k + 1) * (isqrtLoop fuel m k + 1) := by
  intro fuel
  induction fuel with
  | zero =>
    intro k hk
    have he : isqrtLoop 0 m k = k := rfl
    rw [he]
    nlinarith
  | succ fuel ih =>
    intro k hk
    by_cases h : (k + 1) * (k + 1) ≤ m
    · rw [show isqrtLoop (fuel + 1) m k = isqrtLoop fuel m (k + 1) from by
        simp [isqrtLoop, h]]
      exact ih (k + 1) (by omega)
    · rw [show isqrtLoop (fuel + 1) m k = k from by simp [isqrtLoop, h]]
      exact not_le.mp h

/-- The executable `isqrt` agrees with `Nat.sqrt`, i.e. with `math.isqrt`. -/
lemma isqrt_eq (m : Nat) : isqrt m = Nat.sqrt m :=
  Nat.eq_sqrt.mpr ⟨isqrtLoop_sq_le m m 0 (by simp), isqrtLoop_lt_succ m m 0 (by omega)⟩

/-- Characterization of the trial-division loop: starting at an odd probe
`i` with sufficient fuel, it returns `true` iff no odd `j ∈ [i, √m]`
divides `m`. -/
lemma trialDivOdd_spec (m : Nat) : ∀ fuel i, i % 2 = 1 → Nat.sqrt m + 2 ≤ i + 2 * fuel →
    (trialDivOdd fuel m i = true ↔
      ∀ j, j % 2 = 1 → i ≤ j → j ≤ Nat.sqrt m → ¬ j ∣ m) := by
  intro fuel
  induction fuel with
  | zero =>
    intro i hi hbound
    refine ⟨fun _ j hj hij hjs => absurd hjs (by omega), fun _ => rfl⟩
  | succ fuel ih =>
    intro i hi hbound
    by_cases hle : i ≤ Nat.sqrt m
    · by_cases hdvd : m % i = 0
      · have he : trialDivOdd (fuel + 1) m i = false := by
          simp [trialDivOdd, isqrt_eq, hle, hdvd]
        rw [he]
        refine ⟨fun h => absurd h (by decide), fun h => ?_⟩
        exact absurd (Nat.dvd_of_mod_eq_zero hdvd) (h i hi le_rfl hle)
      · have he : trialDivOdd (fuel + 1) m i = trialDivOdd fuel m (i + 2) := by
          simp [trialDivOdd, isqrt_eq, hle, hdvd]
        rw [he, ih (i + 2) (by omega) (by omega)]
        constructor
        · intro h j hj hij hjs
          rcases Nat.lt_or_ge j (i + 2) with hj2 | hj2
          · have hji : j = i := by omega
            subst hji
            intro hd
            exact hdvd (Nat.mod_eq_zero_of_dvd hd)
          · exact h j hj hj2 hjs
        · intro h j hj hij hjs
          exact h j hj (by omega) hjs
    · have he : trialDivOdd (fuel + 1) m i = true := by
        simp [trialDivOdd, isqrt_eq, hle]
      rw [he]
      exact ⟨fun _ j hj hij hjs => absurd hjs (by omega), fun _ => rfl⟩

/-- For odd `m ≥ 3`, having no odd divisor in `[3, √m]` is exactly
primality. -/
lemma prime_iff_trial (m : Nat) (h3 : 3 ≤ m) (hodd : m % 2 = 1) :
    (∀ j, j % 2 = 1 → 3 ≤ j → j ≤ Nat.sqrt m → ¬ j ∣ m) ↔ m.Prime := by
  constructor
  · intro h
    by_contra hnp
    have hm1 : m ≠ 1 := by omega
    have hp := Nat.minFac_prime hm1
    have hpd := Nat.minFac_dvd m
    have hsq : m.minFac ^ 2 ≤ m := Nat.minFac_sq_le_self (by omega) hnp
    rw [pow_two] at hsq
    have hp2 : m.minFac ≠ 2 := by
      intro h2
      rw [h2] at hpd
      omega
    have hple := hp.two_le
    have hpodd : m.minFac % 2 = 1 := by
      rcases Nat.mod_two_eq_zero_or_one m.minFac with h0 | h1
      · exfalso
        have hd2 : 2 ∣ m.minFac := Nat.dvd_of_mod_eq_zero h0
        rcases hp.eq_one_or_self_of_dvd 2 hd2 with h | h
        · omega
        · exact hp2 h.symm
      · exact h1
    exact h m.minFac hpodd (by omega) (Nat.le_sqrt.mpr hsq) hpd
  · intro hm j hj1 hj3 hjs hdvd
    rcases hm.eq_one_or_self_of_dvd j hdvd with h | h
    · omega
    · subst h
      have h1 : j * j ≤ j := Nat.le_sqrt.mp hjs
      nlinarith

/-- C7: for every integer `n`, `is_prime(n)` returns true exactly when
`n ≥ 2` and `n` is prime — it agrees with trial division everywhere: false
for `n < 2` (including negatives), true for 2, false for even `n > 2`, and
for odd `n > 2` false exactly when some odd divisor in `[3, isqrt(n)]`
divides `n`. -/
theorem is_prime_iff (n : Int) : is_prime n = true ↔ 2 ≤ n ∧ Nat.Prime n.toNat := by
  unfold is_prime
  by_cases h1 : n < 2
  · rw [if_pos h1]
    exact ⟨fun h => absurd h (by decide), fun ⟨h2, _⟩ => absurd h1 (by omega)⟩
  · rw [if_neg h1]
    by_cases h2 : n = 2
    · subst h2
      rw [if_pos rfl]
      exact ⟨fun _ => ⟨le_refl 2, by decide⟩, fun _ => rfl⟩
    · rw [if_neg h2]
      have h3 : 3 ≤ n := by omega
      have hemod : n.fmod 2 = n % 2 := Int.fmod_eq_emod _ (by norm_num)
      by_cases hev : n.fmod 2 = 0
      · rw [if_pos hev]
        rw [hemod] at hev
        refine ⟨fun h => absurd h (by decide), fun hh => ?_⟩
        exfalso
        have hm2 : n.toNat % 2 = 0 := by omega
        have hd2 : 2 ∣ n.toNat := Nat.dvd_of_mod_eq_zero hm2
        rcases hh.2.eq_one_or_self_of_dvd 2 hd2 with h | h
        · omega
        · omega
      · rw [if_neg hev]
        rw [hemod] at hev
        have hm3 : 3 ≤ n.toNat := by omega
        have hmodd : n.toNat % 2 = 1 := by omega
        rw [trialDivOdd_spec n.toNat n.toNat 3 (by norm_num) (by
          have := Nat.sqrt_le_self n.toNat
          omega)]
        rw [prime_iff_trial n.toNat hm3 hmodd]
        exact ⟨fun h => ⟨by omega, h⟩, fun hh => hh.2⟩

/-! ### Lemmas about `oddScan` and `find_valid_e` -/

/-- Consecutive integers are coprime. -/
lemma gcd_self_sub_one (x : Int) : Int.gcd (x - 1) x = 1 := by
  have h1 : (↑(Int.gcd (x - 1) x) : Int) ∣ x - 1 := Int.gcd_dvd_left
  have h2 : (↑(Int.gcd (x - 1) x) : Int) ∣ x := Int.gcd_dvd_right
  have h3 : (↑(Int.gcd (x - 1) x) : Int) ∣ 1 := by
    have h := dvd_sub h2 h1
    simpa using h
  have h4 : Int.gcd (x - 1) x ∣ 1 := by exact_mod_cast h3
  exact Nat.dvd_one.mp h4

/-- For odd `x`, `x - 2` and `x` are coprime. -/
lemma gcd_self_sub_two (x : Int) (hodd : x % 2 = 1) : Int.gcd (x - 2) x = 1 := by
  have h1 : (↑(Int.gcd (x - 2) x) : Int) ∣ x - 2 := Int.gcd_dvd_left
  have h2 : (↑(Int.gcd (x - 2) x) : Int) ∣ x := Int.gcd_dvd_right
  have h3 : (↑(Int.gcd (x - 2) x) : Int) ∣ 2 := by
    have h := dvd_sub h2 h1
    simpa using h
  have h4 : Int.gcd (x - 2) x ∣ 2 := by exact_mod_cast h3
  rcases Nat.prime_two.eq_one_or_self_of_dvd _ h4 with h | h
  · exact h
  · exfalso
    have h5 : ((2 : Nat) : Int) ∣ x := by rw [← h]; exact h2
    have h6 : (2 : Int) ∣ x := by exact_mod_cast h5
    omega

/-- Soundness of the fallback scan: a returned candidate is in range,
coprime to `phi`, of the form `e + 2k`, and first among those. -/
lemma oddScan_some (phi : Int) : ∀ fuel (e c : Int), oddScan fuel e phi = some c →
    e ≤ c ∧ c < phi ∧ Int.gcd c phi = 1
      ∧ ∃ k : Nat, c = e + 2 * k
        ∧ ∀ k' : Nat, k' < k → Int.gcd (e + 2 * k') phi ≠ 1 := by
  intro fuel
  induction fuel with
  | zero => intro e c h; simp [oddScan] at h
  | succ fuel ih =>
    intro e c h
    by_cases hlt : e < phi
    · by_cases hg : Int.gcd e phi = 1
      · have hce : c = e := by
          have h' := h
          simp [oddScan, hlt, hg] at h'
          exact h'.symm
        subst hce
        exact ⟨le_rfl, hlt, hg, 0, by push_cast; ring,
          fun k' hk' => absurd hk' (Nat.not_lt_zero _)⟩
      · have h' : oddScan fuel (e + 2) phi = some c := by
          simpa [oddScan, hlt, hg] using h
        obtain ⟨h1, h2, h3, k, hk, hmin⟩ := ih (e + 2) c h'
        refine ⟨by omega, h2, h3, k + 1, by push_cast at hk ⊢; omega, ?_⟩
        intro k' hk'
        cases k' with
        | zero => simpa using hg
        | succ k'' =>
          have hmm := hmin k'' (by omega)
          have heq : e + 2 * ((k'' + 1 : Nat) : Int) = (e + 2) + 2 * (k'' : Int) := by
            push_cast; ring
          rw [heq]
          exact hmm
    · simp [oddScan, hlt] at h

/-- Completeness of the fallback scan: if a coprime candidate of the form
`e + 2k` exists below `phi` within the fuel, the scan returns something. -/
lemma oddScan_complete (phi : Int) : ∀ fuel (e : Int),
    (∃ k : Nat, k < fuel ∧ e + 2 * k < phi ∧ Int.gcd (e + 2 * k) phi = 1) →
    ∃ c, oddScan fuel e phi = some c := by
  intro fuel
  induction fuel with
  | zero => rintro e ⟨k, hk, -, -⟩; omega
  | succ fuel ih =>
    rintro e ⟨k, hk, hlt, hg⟩
    have he : e < phi := by omega
    by_cases hg0 : Int.gcd e phi = 1
    · exact ⟨e, by simp [oddScan, he, hg0]⟩
    · have hk0 : k ≠ 0 := by
        intro h0
        subst h0
        simp at hg
        exact hg0 hg
      obtain ⟨k', rfl⟩ : ∃ k', k = k' + 1 := ⟨k - 1, by omega⟩
      have h' : ∃ kk : Nat, kk < fuel ∧ (e + 2) + 2 * kk < phi
          ∧ Int.gcd ((e + 2) + 2 * kk) phi = 1 := by
        refine ⟨k', by omega, by push_cast at hlt ⊢; omega, ?_⟩
        have heq : (e + 2) + 2 * (k' : Int) = e + 2 * ((k' + 1 : Nat) : Int) := by
          push_cast; ring
        rw [heq]
        exact hg
      obtain ⟨c, hc⟩ := ih (e + 2) h'
      exact ⟨c, by simpa [oddScan, he, hg0] using hc⟩

/-- C6 (amended): `find_valid_e(phi)` returns the first candidate from the
preference list `[65537, 17, 5, 3]` that is below `phi` and coprime to
`phi`; if none qualifies it returns the first odd integer in `[3, phi)`
coprime to `phi`; and it returns the last-resort default 2 exactly when
`phi ≤ 3` (not only for `phi ≤ 2`: at `phi = 3` both searches are empty, so
2 is returned although `phi > 2`). -/
theorem find_valid_e_spec (phi : Int) :
    (∀ c, ([65537, 17, 5, 3] : List Int).find?
        (fun c => decide (c < phi ∧ Int.gcd c phi = 1)) = some c → find_valid_e phi = c)
    ∧ (([65537, 17, 5, 3] : List Int).find?
        (fun c => decide (c < phi ∧ Int.gcd c phi = 1)) = none →
      ∀ c : Int, c % 2 = 1 → 3 ≤ c → c < phi → Int.gcd c phi = 1 →
        (∀ c', c' % 2 = 1 → 3 ≤ c' → c' < phi → Int.gcd c' phi = 1 → c ≤ c') →
        find_valid_e phi = c)
    ∧ (find_valid_e phi = 2 ↔ phi ≤ 3) := by
  refine ⟨fun c hc => by unfold find_valid_e; rw [hc], ?_, ?_⟩
  · intro hnone c hodd h3 hlt hg hmin
    obtain ⟨k, hk⟩ : ∃ k : Nat, c = 3 + 2 * k := by
      have h2 : (2 : Int) ∣ c - 3 := by omega
      obtain ⟨j, hj⟩ := h2
      exact ⟨j.toNat, by omega⟩
    have hkfuel : k < phi.toNat := by omega
    obtain ⟨c0, hc0⟩ := oddScan_complete phi phi.toNat 3
      ⟨k, hkfuel, by rw [← hk]; exact hlt, by rw [← hk]; exact hg⟩
    obtain ⟨h1, h2, h3g, k0, hk0, hmin0⟩ := oddScan_some phi phi.toNat 3 c0 hc0
    have hc0odd : c0 % 2 = 1 := by omega
    have hle1 : c ≤ c0 := hmin c0 hc0odd h1 h2 h3g
    have hle2 : c0 ≤ c := by
      by_contra hcon
      have hkk : k < k0 := by omega
      have hne := hmin0 k hkk
      rw [← hk] at hne
      exact hne hg
    have hcc : c0 = c := by omega
    unfold find_valid_e
    rw [hnone, hc0, hcc]
  · constructor
    · intro h
      by_contra hcon
      have hphi4 : 4 ≤ phi := by omega
      cases hfind : ([65537, 17, 5, 3] : List Int).find?
          (fun c => decide (c < phi ∧ Int.gcd c phi = 1)) with
      | some c =>
        have hm := List.mem_of_find?_eq_some hfind
        have hr : find_valid_e phi = c := by unfold find_valid_e; rw [hfind]
        rw [hr] at h
        simp at hm
        rcases hm with h' | h' | h' | h' <;> omega
      | none =>
        by_cases hpar : phi % 2 = 0
        · have hg1 : Int.gcd (phi - 1) phi = 1 := gcd_self_sub_one phi
          obtain ⟨k, hk⟩ : ∃ k : Nat, phi - 1 = 3 + 2 * k :=
            ⟨((phi - 4) / 2).toNat, by omega⟩
          have hkf : k < phi.toNat := by omega
          obtain ⟨c0, hc0⟩ := oddScan_complete phi phi.toNat 3
            ⟨k, hkf, by rw [← hk]; omega, by rw [← hk]; exact hg1⟩
          obtain ⟨h1, -, -, -⟩ := oddScan_some phi phi.toNat 3 c0 hc0
          have hr : find_valid_e phi = c0 := by
            unfold find_valid_e
            rw [hfind, hc0]
          rw [hr] at h
          omega
        · have hodd : phi % 2 = 1 := by omega
          have hg1 : Int.gcd (phi - 2) phi = 1 := gcd_self_sub_two phi hodd
          obtain ⟨k, hk⟩ : ∃ k : Nat, phi - 2 = 3 + 2 * k :=
            ⟨((phi - 5) / 2).toNat, by omega⟩
          have hkf : k < phi.toNat := by omega
          obtain ⟨c0, hc0⟩ := oddScan_complete phi phi.toNat 3
            ⟨k, hkf, by rw [← hk]; omega, by rw [← hk]; exact hg1⟩
          obtain ⟨h1, -, -, -⟩ := oddScan_some phi phi.toNat 3 c0 hc0
          have hr : find_valid_e phi = c0 := by
            unfold find_valid_e
            rw [hfind, hc0]
          rw [hr] at h
          omega
    · intro hphi
      have hnone : ([65537, 17, 5, 3] : List Int).find?
          (fun c => decide (c < phi ∧ Int.gcd c phi = 1)) = none := by
        rw [List.find?_eq_none]
        intro x hx
        simp at hx
        simp only [decide_eq_true_eq, not_and]
        rcases hx with h' | h' | h' | h' <;> (subst h'; intro hlt; omega)
      have hscan : oddScan phi.toNat 3 phi = none := by
        cases hpn : phi.toNat with
        | zero => rfl
        | succ t =>
          have h3 : ¬ (3 : Int) < phi := by omega
          simp [oddScan, h3]
      unfold find_valid_e
      rw [hnone, hscan]

/-- Witness for C6 at `phi = 20` (the preference list yields 17). -/
theorem find_valid_e_spec_witness :
    (∀ c, ([65537, 17, 5, 3] : List Int).find?
        (fun c => decide (c < (20 : Int) ∧ Int.gcd c 20 = 1)) = some c →
        find_valid_e 20 = c)
    ∧ (([65537, 17, 5, 3] : List Int).find?
        (fun c => decide (c < (20 : Int) ∧ Int.gcd c 20 = 1)) = none →
      ∀ c : Int, c % 2 = 1 → 3 ≤ c → c < 20 → Int.gcd c 20 = 1 →
        (∀ c', c' % 2 = 1 → 3 ≤ c' → c' < 20 → Int.gcd c' 20 = 1 → c ≤ c') →
        find_valid_e 20 = c)
    ∧ (find_valid_e 20 = 2 ↔ (20 : Int) ≤ 3) :=
  find_valid_e_spec 20

/-- C6 counterexample: `find_valid_e(3) = 2` although `phi = 3 > 2`, so 2
is not returned "only in the degenerate case phi ≤ 2". -/
theorem find_valid_e_spec_cex : find_valid_e 3 = 2 ∧ ¬ ((3 : Int) ≤ 2) :=
  ⟨by decide, by decide⟩

/-! ### Lemmas about the session state: `generate_keys` and `encrypt` -/

/-- Case analysis of `generate_keys`: either it fails (any non-`ok`
outcome) and the session state is untouched, or it succeeds and exactly the
key fields and the ready flag are replaced. -/
lemma generate_keys_cases (st : SessionState) (p q e0 : Int) :
    ((generate_keys st p q e0).2 = st
      ∧ ∀ n' phi' e' d', (generate_keys st p q e0).1 ≠ KeygenResult.ok n' phi' e' d')
    ∨ (∃ n' phi' e' d', (generate_keys st p q e0).1 = KeygenResult.ok n' phi' e' d'
        ∧ (generate_keys st p q e0).2 =
          { st with
              n := some n'
              phi := some phi'
              e := some e'
              d := some d'
              keys_ready := true }) := by
  simp only [generate_keys]
  split_ifs <;> try exact Or.inl ⟨rfl, fun _ _ _ _ h => KeygenResult.noConfusion h⟩
  all_goals split
  all_goals try exact Or.inl ⟨rfl, fun _ _ _ _ h => KeygenResult.noConfusion h⟩
  all_goals exact Or.inr ⟨_, _, _, _, rfl, rfl⟩

/-- Case analysis of `encrypt`: either it fails (any non-`ok` outcome) and
the session state — in particular the stored last ciphertext — is
untouched, or it succeeds and exactly `last_cipher` is replaced. -/
lemma encrypt_cases (st : SessionState) (m : Int) :
    ((encrypt st m).2 = st ∧ ∀ c, (encrypt st m).1 ≠ EncryptResult.ok c)
    ∨ (∃ c, (encrypt st m).1 = EncryptResult.ok c
        ∧ (encrypt st m).2 = { st with last_cipher := some c }) := by
  simp only [encrypt]
  split_ifs <;> try exact Or.inl ⟨rfl, fun _ h => EncryptResult.noConfusion h⟩
  all_goals split
  all_goals try exact Or.inl ⟨rfl, fun _ h => EncryptResult.noConfusion h⟩
  all_goals split_ifs <;> try exact Or.inl ⟨rfl, fun _ h => EncryptResult.noConfusion h⟩
  all_goals split
  all_goals try exact Or.inl ⟨rfl, fun _ h => EncryptResult.noConfusion h⟩
  all_goals exact Or.inr ⟨_, rfl, rfl⟩

/-- C8: every error detected by key generation or encryption is atomic:
when `generate_keys` signals any failure (p or q not prime, p = q, no
modular inverse, or a propagated exception) the stored key state
`(n, phi, e, d, keys_ready)` is unchanged; the new key state is stored,
all fields at once, only on the success outcome; and when `encrypt` does
not succeed (no keys, or `m` out of range) the stored last ciphertext is
unchanged. -/
theorem keygen_encrypt_atomicity (st : SessionState) (p q e0 m : Int) :
    ((∀ n' phi' e' d', (generate_keys st p q e0).1 ≠ KeygenResult.ok n' phi' e' d') →
        (generate_keys st p q e0).2 = st)
    ∧ (∀ n' phi' e' d', (generate_keys st p q e0).1 = KeygenResult.ok n' phi' e' d' →
        (generate_keys st p q e0).2 =
          { st with
              n := some n'
              phi := some phi'
              e := some e'
              d := some d'
              keys_ready := true })
    ∧ ((∀ c, (encrypt st m).1 ≠ EncryptResult.ok c) → (encrypt st m).2 = st) := by
  refine ⟨?_, ?_, ?_⟩
  · intro h
    rcases generate_keys_cases st p q e0 with ⟨h1, -⟩ | ⟨n', phi', e', d', hok, -⟩
    · exact h1
    · exact absurd hok (h n' phi' e' d')
  · intro n' phi' e' d' hok
    rcases generate_keys_cases st p q e0 with ⟨-, hne⟩ | ⟨n'', phi'', e'', d'', hok', hst⟩
    · exact absurd hok (hne n' phi' e' d')
    · rw [hok] at hok'
      injection hok' with h1 h2 h3 h4
      subst h1; subst h2; subst h3; subst h4
      exact hst
  · intro h
    rcases encrypt_cases st m with ⟨h1, -⟩ | ⟨c, hok, -⟩
    · exact h1
    · exact absurd hok (h c)

/-- Witness for C8 on the fresh session state with `p = 4` (not prime),
`q = 7`, `e = 17`, `m = 5`. -/
theorem keygen_encrypt_atomicity_witness :
    ((∀ n' phi' e' d',
        (generate_keys ⟨none, none, none, none, false, none⟩ 4 7 17).1
          ≠ KeygenResult.ok n' phi' e' d') →
        (generate_keys ⟨none, none, none, none, false, none⟩ 4 7 17).2
          = ⟨none, none, none, none, false, none⟩)
    ∧ (∀ n' phi' e' d',
        (generate_keys ⟨none, none, none, none, false, none⟩ 4 7 17).1
          = KeygenResult.ok n' phi' e' d' →
        (generate_keys ⟨none, none, none, none, false, none⟩ 4 7 17).2 =
          { (⟨none, none, none, none, false, none⟩ : SessionState) with
              n := some n'
              phi := some phi'
              e := some e'
              d := some d'
              keys_ready := true })
    ∧ ((∀ c, (encrypt ⟨none, none, none, none, false, none⟩ 5).1
          ≠ EncryptResult.ok c) →
        (encrypt ⟨none, none, none, none, false, none⟩ 5).2
          = ⟨none, none, none, none, false, none⟩) :=
  keygen_encrypt_atomicity ⟨none, none, none, none, false, none⟩ 4 7 17 5

